import Mathlib

set_option autoImplicit false

namespace MarkdownMCP

/-! Shallow embedding of the markdown-mcp repository.

Strings are modelled as Lean `String` (a wrapper around `List Char`); the
character-level work happens on `List Char`.  The data model (`MarkdownContent`,
`SectionMetadata`, `Section`) and the `main.py` tool wrapper are translated
from `src/src/models.py` and `src/src/main.py`.  The splitter itself
(`MarkdownSplitter.split_text`, imported from `splitter.py` by `main.py` and
the tests) is not part of the sources, so it is modelled from the spec below.
-/

/-- Characters that Python's regex class `\s` (and `str.strip`) match, in the
ASCII range: space, tab, newline, carriage return, vertical tab, form feed. -/
def isPySpace (c : Char) : Bool :=
  c == ' ' || c == '\t' || c == '\n' || c == '\r' || c == '\x0b' || c == '\x0c'

/-- Python `str.strip()` on a character list: whitespace removed on both ends. -/
def trimChars (l : List Char) : List Char :=
  ((l.dropWhile isPySpace).reverse.dropWhile isPySpace).reverse

/-- Embedding of `re.sub(r"^#+\s*", "", value)` (src/src/models.py:17) on a
character list.  The pattern is anchored at the start, so it fires at most
once: if the string begins with `#`, the maximal leading run of `#` and then
the maximal run of whitespace after it are removed; otherwise the string is
returned unchanged. -/
def cleanChars (v : List Char) : List Char :=
  match v with
  | [] => []
  | c :: cs => if c = '#' then ((c :: cs).dropWhile (· == '#')).dropWhile isPySpace else c :: cs

/-- Embedding of the `MarkdownContent.clean_section_header` field validator
(src/src/models.py:14-17). -/
def clean_section_header (value : String) : String := ⟨cleanChars value.toList⟩

/-- Embedding of `MarkdownContent` (src/src/models.py:8-12). -/
structure MarkdownContent where
  section_header : String
  section_text : String
  deriving DecidableEq, Repr

/-- Constructing a `MarkdownContent` runs the `clean_section_header` field
validator on the `section_header` argument (pydantic validation on construction). -/
def mkMarkdownContent (header text : String) : MarkdownContent :=
  { section_header := clean_section_header header, section_text := text }

/-- Embedding of `SectionMetadata` (src/src/models.py:20-39).  The field
`parents` is a Python dict `dict[str, str | None]`, which preserves insertion
order, embedded as an ordered association list; `siblings` is a list of header
strings. -/
structure SectionMetadata where
  token_count : Option Nat := none
  model_version : Option String := none
  normalized : Bool := false
  error : Option String := none
  original_content : Option MarkdownContent := none
  parents : List (String × Option String) := []
  siblings : List String := []
  deriving DecidableEq, Repr

/-- Embedding of `Section` (src/src/models.py:42-49); it extends
`MarkdownContent`, so the `clean_section_header` validator also runs on
`Section` construction. -/
structure Section extends MarkdownContent where
  header_level : Nat
  metadata : SectionMetadata := {}
  deriving DecidableEq, Repr

/-- Constructing a `Section` runs the inherited `clean_section_header`
validator on the `section_header` argument. -/
def mkSection (header text : String) (level : Nat) (md : SectionMetadata) : Section :=
  { section_header := clean_section_header header, section_text := text,
    header_level := level, metadata := md }

/-- Embedding of `Section.to_markdown` (src/src/models.py:51-53):
the f-string `{'#' * level} {header}\n\n{text}`. -/
def Section.to_markdown (s : Section) : String :=
  ⟨List.replicate s.header_level '#' ++ ' ' :: s.section_header.toList
    ++ '\n' :: '\n' :: s.section_text.toList⟩

/-- First line of a string: the text before the first newline. -/
def firstLine (s : String) : String := ⟨s.toList.takeWhile (· != '\n')⟩

/-- Wording of the spec, for comparison: "heading text with leading `#` markers
and surrounding whitespace stripped" — drop the leading `#` run, then strip
whitespace from both ends. -/
def specStripHeader (value : String) : String :=
  ⟨trimChars (value.toList.dropWhile (· == '#'))⟩

/-! Helper lemmas about `takeWhile`/`dropWhile`. -/

theorem dropWhile_append_of_all {p : Char → Bool} :
    ∀ (l₁ l₂ : List Char), (∀ c ∈ l₁, p c = true) →
      (l₁ ++ l₂).dropWhile p = l₂.dropWhile p
  | [], _, _ => rfl
  | c :: l₁, l₂, h => by
    have hc : p c = true := h c (by simp)
    simp only [List.cons_append, List.dropWhile_cons, hc, if_true]
    exact dropWhile_append_of_all l₁ l₂ (fun d hd => h d (by simp [hd]))

theorem dropWhile_eq_self_of_head {p : Char → Bool} (l : List Char)
    (h : ∀ c, l.head? = some c → p c = false) : l.dropWhile p = l := by
  cases l with
  | nil => rfl
  | cons c cs =>
    have hc : p c = false := h c rfl
    simp [List.dropWhile_cons, hc]

theorem takeWhile_append_of_all {p : Char → Bool} :
    ∀ (l₁ l₂ : List Char), (∀ c ∈ l₁, p c = true) →
      (l₁ ++ l₂).takeWhile p = l₁ ++ l₂.takeWhile p
  | [], _, _ => rfl
  | c :: l₁, l₂, h => by
    have hc : p c = true := h c (by simp)
    simp only [List.cons_append, List.takeWhile_cons, hc, if_true]
    rw [takeWhile_append_of_all l₁ l₂ (fun d hd => h d (by simp [hd]))]

theorem takeWhile_eq_nil_of_head {p : Char → Bool} (l : List Char)
    (h : ∀ c, l.head? = some c → p c = false) : l.takeWhile p = [] := by
  cases l with
  | nil => rfl
  | cons c cs =>
    have hc : p c = false := h c rfl
    simp [List.takeWhile_cons, hc]

theorem isPySpace_ne_hash {c : Char} (h : isPySpace c = true) : (c == '#') = false := by
  simp only [isPySpace, Bool.or_eq_true, beq_iff_eq] at h
  rcases h with ((((h | h) | h) | h) | h) | h <;> subst h <;> decide

/-- Identity branch of the validator: a value not starting with `#` is unchanged. -/
theorem cleanChars_of_head_ne_hash (l : List Char)
    (h : ∀ c, l.head? = some c → c ≠ '#') : cleanChars l = l := by
  cases l with
  | nil => rfl
  | cons c cs =>
    have hc : c ≠ '#' := h c rfl
    simp [cleanChars, hc]

/-- Computation of the validator on a decomposed heading capture: a nonempty
run of `#`, then a run of whitespace, then a rest that starts with neither. -/
theorem cleanChars_decomp (hs ws rest : List Char)
    (hhs : hs ≠ [] ∧ ∀ c ∈ hs, c = '#')
    (hws : ∀ c ∈ ws, isPySpace c = true)
    (hrest : ∀ c, rest.head? = some c → c ≠ '#' ∧ isPySpace c = false) :
    cleanChars (hs ++ ws ++ rest) = rest := by
  obtain ⟨hne, hall⟩ := hhs
  obtain ⟨c0, hs', rfl⟩ : ∃ c0 hs', hs = c0 :: hs' := by
    cases hs with
    | nil => exact absurd rfl hne
    | cons a b => exact ⟨a, b, rfl⟩
  have hc0 : c0 = '#' := hall c0 (by simp)
  subst hc0
  have step1 : (('#' :: hs') ++ ws ++ rest).dropWhile (· == '#')
      = (ws ++ rest).dropWhile (· == '#') := by
    rw [List.append_assoc]
    exact dropWhile_append_of_all _ _ (fun c hc => by
      have : c = '#' := hall c hc
      simp [this])
  have step2 : (ws ++ rest).dropWhile (· == '#') = ws ++ rest := by
    apply dropWhile_eq_self_of_head
    intro c hc
    cases ws with
    | nil =>
      simp only [List.nil_append] at hc
      have := (hrest c hc).1
      simp [this]
    | cons w ws' =>
      simp only [List.cons_append, List.head?_cons, Option.some.injEq] at hc
      rw [← hc]
      exact isPySpace_ne_hash (hws w (by simp))
  have step3 : (ws ++ rest).dropWhile isPySpace = rest := by
    rw [dropWhile_append_of_all ws rest hws]
    apply dropWhile_eq_self_of_head
    intro c hc
    exact (hrest c hc).2
  have hred : cleanChars (('#' :: hs') ++ ws ++ rest)
      = ((('#' :: hs') ++ ws ++ rest).dropWhile (· == '#')).dropWhile isPySpace := by
    simp [cleanChars]
  rw [hred, step1, step2, step3]

/-! Splitter.

Both `src/src/main.py` and the tests import `MarkdownSplitter` from
`splitter.py`, which is not among the sources; the definitions below are
therefore modelled from the spec, section 4.1. -/

/-- Modelled from the spec: the line scanning of the missing `splitter.py`.
The input is processed line by line; lines are the maximal newline-free
segments (an empty input is a single empty line, which is not a heading and
produces no section). -/
def splitLinesChars : List Char → List (List Char)
  | [] => [[]]
  | c :: rest =>
    if c = '\n' then [] :: splitLinesChars rest
    else
      match splitLinesChars rest with
      | [] => [[c]]
      | l :: ls => (c :: l) :: ls

/-- Backtick character (the fence character of spec section 4.1 step 1). -/
def backtick : Char := Char.ofNat 96

/-- Modelled from the spec: fence-marker recognition (spec 4.1 Pass 1 step 1):
a line consisting of a run of three or more backticks or tildes, optionally
followed by a language tag.  Returns the fence character when the line is a
fence marker. -/
def fenceCharOf (line : List Char) : Option Char :=
  match line with
  | [] => none
  | c :: _ =>
    if (c = backtick ∨ c = '~') ∧ 3 ≤ (line.takeWhile (· == c)).length then some c
    else none

/-- Modelled from the spec: ATX heading recognition (spec 4.1 Pass 1 step 3):
no leading whitespace permitted, then one or more `#` characters followed by
whitespace or end of line.  The level is the count of leading `#`, the header
text is everything after the run, trimmed. -/
def headingOf (line : List Char) : Option (Nat × List Char) :=
  let hs := line.takeWhile (· == '#')
  let rest := line.dropWhile (· == '#')
  if hs.length = 0 then none
  else if rest.isEmpty then some (hs.length, [])
  else if isPySpace (rest.headD ' ') then some (hs.length, trimChars rest) else none

/-- Modelled from the spec: classification of one line given the current fence
state (spec 4.1 Pass 1 steps 1-3).  Returns the next fence state and the
heading parse of the line (`none` for every content, code or fence line; while
inside a fence no line is a heading candidate, and only a fence marker of the
same character closes the block). -/
def classifyStep (fence : Option Char) (line : List Char) :
    Option Char × Option (Nat × List Char) :=
  match fence with
  | some c => (if fenceCharOf line = some c then none else some c, none)
  | none =>
    match fenceCharOf line with
    | some c => (some c, none)
    | none => (none, headingOf line)

/-- Tagged line list: each line paired with its in-context heading parse. -/
abbrev Tagged := List (Option (Nat × List Char) × List Char)

/-- Modelled from the spec: the classification pass over all lines, threading
the fence state. -/
def classifyLines (fence : Option Char) : List (List Char) → Tagged
  | [] => []
  | l :: rest =>
    ((classifyStep fence l).2, l) :: classifyLines (classifyStep fence l).1 rest

/-- Raw output of pass 1: header capture, level, content span. -/
structure RawSection where
  header : List Char
  level : Nat
  content : List Char
  deriving DecidableEq, Repr

/-- Blank line: empty or whitespace only. -/
def isBlankLine (l : List Char) : Bool := l.all isPySpace

/-- Strip leading and trailing blank lines of a content buffer. -/
def stripBlankEnds (ls : List (List Char)) : List (List Char) :=
  ((ls.dropWhile isBlankLine).reverse.dropWhile isBlankLine).reverse

/-- Join content lines back with newlines. -/
def joinLines (ls : List (List Char)) : List Char := List.intercalate ['\n'] ls

/-- Append a content line to the currently open section's buffer; content
before the first heading is discarded (spec 4.1 Pass 1 step 4). -/
def pushLine (cur : Option (Nat × List Char × List (List Char))) (l : List Char) :
    Option (Nat × List Char × List (List Char)) :=
  match cur with
  | none => none
  | some (lvl, hdr, buf) => some (lvl, hdr, buf ++ [l])

/-- Close the currently open section, if any: its content is the accumulated
buffer with leading and trailing blank lines stripped (spec 4.1 steps 5-6). -/
def closeOpt (cur : Option (Nat × List Char × List (List Char))) : List RawSection :=
  match cur with
  | none => []
  | some (lvl, hdr, buf) => [⟨hdr, lvl, joinLines (stripBlankEnds buf)⟩]

/-- Modelled from the spec: the sectioning pass (spec 4.1 Pass 1 steps 4-6)
over the tagged lines: a heading line closes the previous section and opens a
new one; every other line accumulates into the current buffer; the last open
section is closed at end of input. -/
def segCore (cur : Option (Nat × List Char × List (List Char))) : Tagged → List RawSection
  | [] => closeOpt cur
  | (none, l) :: rest => segCore (pushLine cur l) rest
  | (some (lvl, hdr), _) :: rest => closeOpt cur ++ segCore (some (lvl, hdr, [])) rest

/-- Pass 1 of the modelled splitter. -/
def splitRaw (text : String) : List RawSection :=
  segCore none (classifyLines none (splitLinesChars text.toList))

/-- Header of a section as stored on the constructed `Section` object: the
pass-1 capture after the pydantic validator. -/
def cleanedHeader (r : RawSection) : String := clean_section_header ⟨r.header⟩

/-- Modelled from the spec: ancestor tracking (spec 4.1 Pass 2 step 1).  The
state is the list of currently open ancestor headings, one slot per level in
increasing level order; visiting a section of level L removes every tracked
ancestor of level at least L, emits the ancestors at levels below L as the
section's `parents` mapping (skipping missing levels, never inserting nulls),
and records the section's own header at level L. -/
def computeParents (anc : List (Nat × String)) :
    List RawSection → List (RawSection × List (String × Option String))
  | [] => []
  | s :: rest =>
    let kept := anc.filter (fun p => p.1 < s.level)
    (s, kept.map (fun p => ("h" ++ toString p.1, some p.2))) ::
      computeParents (kept ++ [(s.level, cleanedHeader s)]) rest

/-- Pass 2a: every raw section with its `parents` mapping. -/
def withParents (text : String) : List (RawSection × List (String × Option String)) :=
  computeParents [] (splitRaw text)

/-- Sibling grouping key (spec 4.1 Pass 2 step 2): the `(level, parents)` pair. -/
def sibKey (x : RawSection × List (String × Option String)) :
    Nat × List (String × Option String) := (x.1.level, x.2)

/-- Modelled from the spec: the siblings of the section at position i: the
headers of the other members of its `(level, parents)` group, in document
order, the section itself excluded (spec 4.1 Pass 2 step 2). -/
def siblingsOf (ps : List (RawSection × List (String × Option String))) (i : Nat) :
    List String :=
  match ps.get? i with
  | none => []
  | some x =>
    (ps.enum.filter (fun jp => jp.1 != i && (sibKey jp.2 == sibKey x))).map
      (fun jp => cleanedHeader jp.2.1)

/-- Modelled from the spec: `MarkdownSplitter.split_text`, the whole splitter:
pass 1 sectioning, then parents and siblings metadata, the sections being
built through the validating constructor. -/
def MarkdownSplitter.split_text (text : String) : List Section :=
  let ps := withParents text
  ps.enum.map (fun ip =>
    mkSection ⟨ip.2.1.header⟩ ⟨ip.2.1.content⟩ ip.2.1.level
      { parents := ip.2.2, siblings := siblingsOf ps ip.1 })

/-! Further helper lemmas. -/

theorem cleanChars_cons_hash (cs : List Char) :
    cleanChars ('#' :: cs) = (('#' :: cs).dropWhile (· == '#')).dropWhile isPySpace := by
  simp [cleanChars]

theorem cleanChars_of_headD_ne_hash (l : List Char) (h : l.headD 'x' ≠ '#') :
    cleanChars l = l := by
  cases l with
  | nil => rfl
  | cons c cs =>
    simp only [List.headD_cons] at h
    simp [cleanChars, h]

theorem headD_forall {α : Type} {P : α → Prop} (l : List α) (d : α) (h : P (l.headD d)) :
    ∀ c, l.head? = some c → P c := by
  intro c hc
  cases l with
  | nil => cases hc
  | cons a as =>
    simp only [List.head?_cons, Option.some.injEq] at hc
    simp only [List.headD_cons] at h
    rwa [← hc]

/-! Claim C7: header normalization on construction. -/

/-- C7 counterexample: on the raw heading capture "# Foo " the validator keeps
the trailing space, so the constructed `section_header` is not the originating
heading text with the `#` markers and the surrounding (leading and trailing)
whitespace stripped. -/
theorem c7_counterexample :
    (mkMarkdownContent "# Foo " "").section_header = "Foo " ∧
    specStripHeader "# Foo " = "Foo" ∧
    (mkMarkdownContent "# Foo " "").section_header ≠ specStripHeader "# Foo " := by
  decide

/-- C7 (amended): the `clean_section_header` validator removes exactly the
leading run of `#` markers and the whitespace run immediately following it:
on a capture decomposing into a nonempty `#` run, a whitespace run and a rest
starting with neither, the constructed header is exactly that rest (so
trailing whitespace is preserved), and a value that does not start with `#`
(for example one with leading whitespace before the markers) is unchanged. -/
theorem c7_header_normalization (hs ws rest : List Char) (v : String)
    (hhs : hs ≠ [] ∧ ∀ c ∈ hs, c = '#')
    (hws : ∀ c ∈ ws, isPySpace c = true)
    (hrest : rest.headD 'x' ≠ '#' ∧ isPySpace (rest.headD 'x') = false)
    (hv : v.toList.headD 'x' ≠ '#') :
    (mkMarkdownContent ⟨hs ++ ws ++ rest⟩ "").section_header = ⟨rest⟩ ∧
    (mkMarkdownContent v "").section_header = v := by
  refine ⟨congrArg String.mk (cleanChars_decomp hs ws rest hhs hws ?_),
    congrArg String.mk (cleanChars_of_headD_ne_hash v.toList hv)⟩
  exact headD_forall rest 'x' hrest

/-- C7 witness: the amended normalization evaluated on the capture "# Foo ". -/
theorem c7_witness :
    ((['#'] : List Char) ≠ [] ∧ ∀ c ∈ (['#'] : List Char), c = '#') ∧
    (∀ c ∈ ([' '] : List Char), isPySpace c = true) ∧
    ((['F', 'o', 'o', ' '] : List Char).headD 'x' ≠ '#'
      ∧ isPySpace ((['F', 'o', 'o', ' '] : List Char).headD 'x') = false) ∧
    "A".toList.headD 'x' ≠ '#' ∧
    (mkMarkdownContent ⟨['#'] ++ [' '] ++ ['F', 'o', 'o', ' ']⟩ "").section_header
      = ⟨['F', 'o', 'o', ' ']⟩ :=
  ⟨⟨by decide, by decide⟩, by decide, ⟨by decide, by decide⟩, by decide,
    (c7_header_normalization ['#'] [' '] ['F', 'o', 'o', ' '] "A"
      ⟨by decide, by decide⟩ (by decide) ⟨by decide, by decide⟩ (by decide)).1⟩

/-! Claim C8: idempotence of the header normalization. -/

/-- C8 counterexample: the validator is not idempotent: on "# #x" a first
application yields "#x" and a second application strips again, yielding "x". -/
theorem c8_counterexample :
    clean_section_header "# #x" = "#x" ∧
    clean_section_header (clean_section_header "# #x") ≠ clean_section_header "# #x" := by
  decide

/-- C8 (amended): re-applying `clean_section_header` is a no-op whenever the
once-cleaned header does not itself start with `#` (that is, unless the raw
capture had a second `#` right after the stripped run and whitespace). -/
theorem c8_idempotent_unless_hash (h : String)
    (hh : (clean_section_header h).toList.headD 'x' ≠ '#') :
    clean_section_header (clean_section_header h) = clean_section_header h :=
  congrArg String.mk (cleanChars_of_headD_ne_hash _ hh)

/-- C8 witness: idempotence at the already-clean result of "## x". -/
theorem c8_witness :
    (clean_section_header "## x").toList.headD 'x' ≠ '#' ∧
    clean_section_header (clean_section_header "## x") = clean_section_header "## x" :=
  ⟨by decide, c8_idempotent_unless_hash "## x" (by decide)⟩

/-! Claim C9: can a constructed header start with a hash? -/

/-- C9 counterexample: a `MarkdownContent` whose `section_header` begins with
`#` is constructible: the validator strips only the first `#` run with the
whitespace after it, so the raw value "# #x" yields the header "#x". -/
theorem c9_counterexample :
    (mkMarkdownContent "# #x" "").section_header = "#x" ∧
    (mkMarkdownContent "# #x" "").section_header.toList.headD 'x' = '#' := by
  decide

/-- C9 (amended): the validator removes only the leading `#` run and the
whitespace run after it; a header whose text genuinely begins with `#` is
representable: for every string s the raw value consisting of a hash, a space
and then hash-s constructs the header hash-s. -/
theorem c9_hash_header_representable (s : String) :
    (mkMarkdownContent ⟨'#' :: ' ' :: '#' :: s.toList⟩ "").section_header
      = ⟨'#' :: s.toList⟩ := rfl

/-! Claim C10: round trip through `to_markdown`. -/

/-- C10 counterexample: a Section whose header contains a newline (while not
beginning with whitespace) breaks the round trip: only the part of the header
before the newline survives into the first line of `to_markdown`. -/
theorem c10_counterexample :
    (mkSection "a\nb" "" 1 {}).section_header = "a\nb" ∧
    isPySpace ((mkSection "a\nb" "" 1 {}).section_header.toList.headD 'x') = false ∧
    (mkMarkdownContent (firstLine (mkSection "a\nb" "" 1 {}).to_markdown) "").section_header
      ≠ (mkSection "a\nb" "" 1 {}).section_header := by
  decide

/-- C10 (amended): for every Section whose header contains no newline and does
not begin with whitespace, and whose level is at least one, the first line of
`to_markdown` is exactly the level-many `#` markers, then a single space, then
the header, and constructing a `MarkdownContent` from that line restores the
header exactly. -/
theorem c10_roundtrip (s : Section)
    (hnl : ∀ c ∈ s.section_header.toList, c ≠ '\n')
    (hws : isPySpace (s.section_header.toList.headD 'x') = false)
    (hlvl : 1 ≤ s.header_level) :
    (firstLine s.to_markdown).toList
      = List.replicate s.header_level '#' ++ ' ' :: s.section_header.toList ∧
    (mkMarkdownContent (firstLine s.to_markdown) "").section_header = s.section_header ∧
    (firstLine s.to_markdown).toList.takeWhile (· == '#')
      = List.replicate s.header_level '#' := by
  have hrepl : ∀ c ∈ List.replicate s.header_level '#', (c != '\n') = true := by
    intro c hc
    have := List.eq_of_mem_replicate hc
    subst this; decide
  have hreph : ∀ c ∈ List.replicate s.header_level '#', (c == '#') = true := by
    intro c hc
    have := List.eq_of_mem_replicate hc
    subst this; decide
  have hdrnl : ∀ c ∈ s.section_header.toList, (c != '\n') = true := by
    intro c hc
    have := hnl c hc
    simpa [bne_iff_ne] using this
  have h1 : (firstLine s.to_markdown).toList
      = List.replicate s.header_level '#' ++ ' ' :: s.section_header.toList := by
    show ((List.replicate s.header_level '#' ++ ' ' :: s.section_header.toList)
        ++ '\n' :: '\n' :: s.section_text.toList).takeWhile (· != '\n')
      = List.replicate s.header_level '#' ++ ' ' :: s.section_header.toList
    rw [List.append_assoc, takeWhile_append_of_all _ _ hrepl, List.cons_append,
      List.takeWhile_cons_of_pos (by decide), takeWhile_append_of_all _ _ hdrnl,
      List.takeWhile_cons_of_neg (by decide), List.append_nil]
  refine ⟨h1, ?_, ?_⟩
  · obtain ⟨n, hn⟩ : ∃ n, s.header_level = n + 1 := by
      cases hL : s.header_level with
      | zero => omega
      | succ n => exact ⟨n, rfl⟩
    have key : cleanChars ((firstLine s.to_markdown).toList) = s.section_header.toList := by
      rw [h1, hn, List.replicate_succ, List.cons_append, cleanChars_cons_hash,
        List.dropWhile_cons_of_pos (by decide),
        dropWhile_append_of_all _ _ (by
          intro c hc
          have := List.eq_of_mem_replicate hc
          subst this; decide),
        List.dropWhile_cons_of_neg (by decide),
        List.dropWhile_cons_of_pos (by decide)]
      exact dropWhile_eq_self_of_head _ (headD_forall _ 'x' hws)
    exact congrArg String.mk key
  · rw [h1, takeWhile_append_of_all _ _ hreph,
      List.takeWhile_cons_of_neg (by decide), List.append_nil]

/-- C10 witness: the amended round trip at a concrete level-2 section. -/
theorem c10_witness :
    (∀ c ∈ (mkSection "Title" "body" 2 {}).section_header.toList, c ≠ '\n') ∧
    isPySpace ((mkSection "Title" "body" 2 {}).section_header.toList.headD 'x') = false ∧
    1 ≤ (mkSection "Title" "body" 2 {}).header_level ∧
    (mkMarkdownContent (firstLine (mkSection "Title" "body" 2 {}).to_markdown) "").section_header
      = (mkSection "Title" "body" 2 {}).section_header :=
  ⟨by decide, by decide, by decide,
    (c10_roundtrip (mkSection "Title" "body" 2 {}) (by decide) (by decide) (by decide)).2.1⟩

/-! Claim C5: error handling of the `split_text` tool. -/

/-- Embedding of the `split_text` MCP tool body (src/src/main.py:59-67): the
splitter call is wrapped in try/except; an exception is logged and re-raised
unchanged (`raise`), a success is returned unchanged.  Failure is modelled
with `Except`: the argument is the outcome of the wrapped splitter call. -/
def split_text_tool (result : Except String (List Section)) :
    Except String (List Section) :=
  match result with
  | Except.ok sections => Except.ok sections
  | Except.error e => Except.error e

/-- Modelled from the spec: the fallible view of the splitter seen by the tool.
The spec's splitter (section 4.1) is a total function of its input with no
internal failure path, so every run returns a valid (possibly empty) list. -/
def splitterRun (text : String) : Except String (List Section) :=
  Except.ok (MarkdownSplitter.split_text text)

/-- C5: the tool returns a valid (possibly empty) section list for every
input — in particular the malformed-but-processable ones: empty string, no
headings, unterminated fence, preamble before the first heading — and when the
wrapped call fails, the failure is re-raised unchanged, never suppressed and
never converted into an empty (or any) successful result. -/
theorem c5_error_handling :
    (∀ text : String,
      split_text_tool (splitterRun text) = Except.ok (MarkdownSplitter.split_text text)) ∧
    splitterRun "" = Except.ok [] ∧
    splitterRun "plain text\nwith no headings" = Except.ok [] ∧
    split_text_tool (splitterRun "~~~\n# inside an unterminated fence")
      = Except.ok (MarkdownSplitter.split_text "~~~\n# inside an unterminated fence") ∧
    split_text_tool (splitterRun "preamble\n# A\ntext")
      = Except.ok (MarkdownSplitter.split_text "preamble\n# A\ntext") ∧
    (∀ e : String, split_text_tool (Except.error e) = Except.error e) ∧
    (∀ e : String, ∀ l : List Section, split_text_tool (Except.error e) ≠ Except.ok l) := by
  refine ⟨fun text => rfl, rfl, rfl, rfl, rfl, fun e => rfl, fun e l h => ?_⟩
  exact Except.noConfusion h

/-! Claim C4: no headings inside fenced code blocks. -/

/-- C4: while the fence flag is set no line is classified as a heading or
opens a section, whatever its content; and when a fence opened with character
c is never closed, every remaining line through end of input is tagged as
plain content: with no section open none is ever created, and with a section
open the lines only accumulate into its content buffer — no error, no new
section. -/
theorem c4_fence_safety (c : Char) (line : List Char) (ls : List (List Char))
    (lvl : Nat) (hdr : List Char) (buf : List (List Char))
    (hnoclose : ∀ l ∈ ls, fenceCharOf l ≠ some c) :
    (classifyStep (some c) line).2 = none ∧
    classifyLines (some c) ls = ls.map (fun l => ((none : Option (Nat × List Char)), l)) ∧
    segCore none (ls.map (fun l => ((none : Option (Nat × List Char)), l))) = [] ∧
    segCore (some (lvl, hdr, buf)) (ls.map (fun l => ((none : Option (Nat × List Char)), l)))
      = [⟨hdr, lvl, joinLines (stripBlankEnds (buf ++ ls))⟩] := by
  refine ⟨rfl, ?_, ?_, ?_⟩
  · induction ls with
    | nil => rfl
    | cons l rest ih =>
      have hl : fenceCharOf l ≠ some c := hnoclose l (by simp)
      have hstep : (classifyStep (some c) l).1 = some c := by
        simp [classifyStep, hl]
      simp only [classifyLines, hstep, List.map_cons]
      rw [ih (fun l' hl' => hnoclose l' (by simp [hl']))]
      rfl
  · induction ls with
    | nil => rfl
    | cons l rest ih =>
      simpa [segCore, pushLine] using ih (fun l' hl' => hnoclose l' (by simp [hl']))
  · induction ls generalizing buf with
    | nil => simp [segCore, closeOpt]
    | cons l rest ih =>
      simp only [List.map_cons, segCore, pushLine]
      rw [ih (buf ++ [l]) (fun l' hl' => hnoclose l' (by simp [hl']))]
      simp

/-- C4 witness: a hash line inside an unterminated tilde fence stays content. -/
theorem c4_witness :
    (∀ l ∈ [['#', ' ', 'x']], fenceCharOf l ≠ some '~') ∧
    classifyLines (some '~') [['#', ' ', 'x']]
      = [['#', ' ', 'x']].map (fun l => ((none : Option (Nat × List Char)), l)) :=
  ⟨by decide,
    (c4_fence_safety '~' [] [['#', ' ', 'x']] 0 [] [] (by decide)).2.1⟩

/-! Structural lemmas about the splitter passes. -/

theorem computeParents_map_fst (anc : List (Nat × String)) (rs : List RawSection) :
    (computeParents anc rs).map Prod.fst = rs := by
  induction rs generalizing anc with
  | nil => rfl
  | cons s rest ih => simp [computeParents, ih]

theorem computeParents_length (anc : List (Nat × String)) (rs : List RawSection) :
    (computeParents anc rs).length = rs.length := by
  have := congrArg List.length (computeParents_map_fst anc rs)
  simpa using this

theorem split_text_eq (text : String) :
    MarkdownSplitter.split_text text
      = (withParents text).enum.map (fun ip =>
          mkSection ⟨ip.2.1.header⟩ ⟨ip.2.1.content⟩ ip.2.1.level
            { parents := ip.2.2, siblings := siblingsOf (withParents text) ip.1 }) := rfl

theorem split_text_length (text : String) :
    (MarkdownSplitter.split_text text).length = (splitRaw text).length := by
  rw [split_text_eq]
  simp [withParents, computeParents_length]

/-- Projection of pass 1 to (level, header) pairs: the sections produced are
exactly the heading-tagged lines, in document order. -/
theorem segCore_levels (tg : Tagged) : ∀ cur,
    (segCore cur tg).map (fun r => (r.level, r.header))
      = (closeOpt cur).map (fun r => (r.level, r.header)) ++ tg.filterMap (fun p => p.1) := by
  induction tg with
  | nil => intro cur; simp [segCore]
  | cons p rest ih =>
    intro cur
    obtain ⟨tag, l⟩ := p
    cases tag with
    | none =>
      have h1 : (((none, l) : Option (Nat × List Char) × List Char) :: rest).filterMap
          (fun p => p.1) = rest.filterMap (fun p => p.1) := by simp
      rw [h1]
      show (segCore (pushLine cur l) rest).map (fun r => (r.level, r.header)) = _
      rw [ih (pushLine cur l)]
      congr 1
      cases cur with
      | none => rfl
      | some s =>
        obtain ⟨lv, hd, bf⟩ := s
        rfl
    | some hl =>
      obtain ⟨lvl, hdr⟩ := hl
      show ((closeOpt cur ++ segCore (some (lvl, hdr, [])) rest).map
          (fun r => (r.level, r.header))) = _
      rw [List.map_append, ih (some (lvl, hdr, []))]
      simp [closeOpt]

theorem splitRaw_levels (text : String) :
    (splitRaw text).map (fun r => (r.level, r.header))
      = (classifyLines none (splitLinesChars text.toList)).filterMap (fun p => p.1) := by
  have := segCore_levels (classifyLines none (splitLinesChars text.toList)) none
  simpa [closeOpt] using this

/-- Modelled from the spec: the number of heading lines outside fenced code
blocks is the number of lines the classification pass tags with a heading
parse. -/
def countHeadings (text : String) : Nat :=
  ((classifyLines none (splitLinesChars text.toList)).filterMap (fun p => p.1)).length

theorem split_text_map_level (text : String) :
    (MarkdownSplitter.split_text text).map (fun s => s.header_level)
      = (splitRaw text).map (fun r => r.level) := by
  rw [split_text_eq, List.map_map]
  have h1 : ((fun s : Section => s.header_level) ∘ (fun ip =>
      mkSection ⟨ip.2.1.header⟩ ⟨ip.2.1.content⟩ ip.2.1.level
        { parents := ip.2.2, siblings := siblingsOf (withParents text) ip.1 }))
      = (fun x : RawSection × List (String × Option String) => x.1.level) ∘ Prod.snd := rfl
  rw [h1, ← List.map_map, List.enum_map_snd]
  rw [show (fun x : RawSection × List (String × Option String) => x.1.level)
      = (fun r : RawSection => r.level) ∘ Prod.fst from rfl]
  rw [← List.map_map, withParents, computeParents_map_fst]

/-! Claim C1: one section per heading line outside fences, in document order. -/

/-- C1: for every input the splitter returns exactly one section per heading
line occurring outside fenced code blocks, in document order (the list of
section levels equals the list of levels of the tagged heading lines, and the
lengths agree); an empty string, a heading-free text, and a lone fenced code
block containing hash-prefixed lines all yield the empty sequence. -/
theorem c1_one_section_per_heading :
    (∀ text : String,
      (MarkdownSplitter.split_text text).length = countHeadings text ∧
      (MarkdownSplitter.split_text text).map (fun s => s.header_level)
        = ((classifyLines none (splitLinesChars text.toList)).filterMap
            (fun p => p.1)).map (fun p => p.1)) ∧
    MarkdownSplitter.split_text "" = [] ∧
    MarkdownSplitter.split_text "plain text\nno headings at all" = [] ∧
    MarkdownSplitter.split_text "~~~\n# just a comment\n### another\n~~~" = [] := by
  refine ⟨fun text => ⟨?_, ?_⟩, rfl, rfl, rfl⟩
  · rw [split_text_length, countHeadings, ← splitRaw_levels, List.length_map]
  · rw [split_text_map_level, ← splitRaw_levels, List.map_map]
    rfl

/-! Access lemmas for the assembled sections. -/

theorem withParents_length (text : String) :
    (withParents text).length = (splitRaw text).length := computeParents_length _ _

theorem split_length_iff (text : String) (i : Nat) :
    i < (MarkdownSplitter.split_text text).length ↔ i < (withParents text).length := by
  rw [split_text_length, withParents_length]

theorem split_text_get? (text : String) (i : Nat) :
    (MarkdownSplitter.split_text text)[i]?
      = ((withParents text)[i]?).map (fun x =>
          mkSection ⟨x.1.header⟩ ⟨x.1.content⟩ x.1.level
            { parents := x.2, siblings := siblingsOf (withParents text) i }) := by
  rw [split_text_eq, List.getElem?_map, List.getElem?_enum]
  cases (withParents text)[i]? <;> rfl

theorem split_text_getElem (text : String) (i : Nat)
    (h : i < (withParents text).length)
    (hs : i < (MarkdownSplitter.split_text text).length) :
    (MarkdownSplitter.split_text text)[i]
      = mkSection ⟨((withParents text)[i]).1.header⟩ ⟨((withParents text)[i]).1.content⟩
          ((withParents text)[i]).1.level
          { parents := ((withParents text)[i]).2,
            siblings := siblingsOf (withParents text) i } := by
  have h1 := split_text_get? text i
  rw [List.getElem?_eq_getElem hs, List.getElem?_eq_getElem h] at h1
  simpa using h1

theorem siblingsOf_eq (ps : List (RawSection × List (String × Option String))) (i : Nat)
    (h : i < ps.length) :
    siblingsOf ps i
      = (ps.enum.filter (fun jp => jp.1 != i && (sibKey jp.2 == sibKey ps[i]))).map
          (fun jp => cleanedHeader jp.2.1) := by
  unfold siblingsOf
  rw [List.get?_eq_getElem?, List.getElem?_eq_getElem h]

theorem sib_mem (ps : List (RawSection × List (String × Option String))) (i j : Nat)
    (hi : i < ps.length) (hj : j < ps.length) (hne : j ≠ i)
    (hkey : sibKey ps[j] = sibKey ps[i]) :
    cleanedHeader (ps[j]).1 ∈ siblingsOf ps i := by
  rw [siblingsOf_eq ps i hi]
  refine List.mem_map.mpr ⟨(j, ps[j]), ?_, rfl⟩
  refine List.mem_filter.mpr ⟨?_, ?_⟩
  · exact List.mem_enum_iff_getElem?.mpr (by simp [List.getElem?_eq_getElem hj])
  · simp [bne_iff_ne, hne, beq_iff_eq, hkey]

theorem sib_own_iff (ps : List (RawSection × List (String × Option String))) (i : Nat)
    (hi : i < ps.length) :
    cleanedHeader (ps[i]).1 ∈ siblingsOf ps i
      ↔ ∃ k, ∃ hk : k < ps.length, k ≠ i ∧ sibKey ps[k] = sibKey ps[i]
          ∧ cleanedHeader (ps[k]).1 = cleanedHeader (ps[i]).1 := by
  rw [siblingsOf_eq ps i hi, List.mem_map]
  constructor
  · rintro ⟨⟨k, y⟩, hmem, hhd⟩
    rw [List.mem_filter] at hmem
    obtain ⟨henum, hpred⟩ := hmem
    rw [List.mem_enum_iff_getElem?] at henum
    rw [List.getElem?_eq_some_iff] at henum
    obtain ⟨hk, hy⟩ := henum
    have hk' : k < ps.length := hk
    have hy' : ps[k] = y := hy
    simp only [bne_iff_ne, beq_iff_eq, Bool.and_eq_true] at hpred
    refine ⟨k, hk', hpred.1, ?_, ?_⟩
    · rw [hy']
      exact hpred.2
    · rw [hy']
      exact hhd
  · rintro ⟨k, hk, hki, hkey, hhd⟩
    refine ⟨(k, ps[k]), List.mem_filter.mpr ⟨?_, ?_⟩, hhd⟩
    · exact List.mem_enum_iff_getElem?.mpr (by simp [List.getElem?_eq_getElem hk])
    · simp [bne_iff_ne, hki, beq_iff_eq, hkey]

theorem filtermap_enumFrom_rel {α β γ : Type} (R : α → β → Prop)
    (p : Nat × α → Bool) (q : Nat × β → Bool) (f : Nat × α → γ) (g : Nat × β → γ)
    (hpq : ∀ n a b, R a b → p (n, a) = q (n, b))
    (hfg : ∀ n a b, R a b → f (n, a) = g (n, b)) :
    ∀ (n : Nat) (xs : List α) (ys : List β), List.Forall₂ R xs ys →
      ((List.enumFrom n xs).filter p).map f = ((List.enumFrom n ys).filter q).map g := by
  intro n xs ys hall
  induction hall generalizing n with
  | nil => rfl
  | cons hR htail ih =>
    rename_i a b xs' ys'
    rw [List.enumFrom_cons, List.enumFrom_cons, List.filter_cons, List.filter_cons,
      hpq n a b hR]
    cases hq : q (n, b) with
    | false => simpa [hq] using ih (n + 1)
    | true =>
      simp only [hq, if_true, List.map_cons]
      rw [hfg n a b hR, ih (n + 1)]

theorem filtermap_enum_rel {α β γ : Type} (R : α → β → Prop)
    (p : Nat × α → Bool) (q : Nat × β → Bool) (f : Nat × α → γ) (g : Nat × β → γ)
    (hpq : ∀ n a b, R a b → p (n, a) = q (n, b))
    (hfg : ∀ n a b, R a b → f (n, a) = g (n, b))
    (xs : List α) (ys : List β) (hall : List.Forall₂ R xs ys) :
    (xs.enum.filter p).map f = (ys.enum.filter q).map g := by
  rw [List.enum_eq_enumFrom, List.enum_eq_enumFrom]
  exact filtermap_enumFrom_rel R p q f g hpq hfg 0 xs ys hall

theorem split_text_forall₂ (text : String) :
    List.Forall₂ (fun (x : RawSection × List (String × Option String)) (s : Section) =>
        s.section_header = cleanedHeader x.1 ∧ s.header_level = x.1.level
          ∧ s.metadata.parents = x.2)
      (withParents text) (MarkdownSplitter.split_text text) := by
  rw [List.forall₂_iff_get]
  refine ⟨by rw [split_text_length, withParents_length], ?_⟩
  intro i h1 h2
  simp only [List.get_eq_getElem]
  rw [split_text_getElem text i h1 h2]
  exact ⟨rfl, rfl, rfl⟩

/-! Claim C3: sibling symmetry, document order, self-exclusion. -/

/-- C3 counterexample: on the input with two identical level-1 headings "X",
both sections have the same level and parents, and each one's siblings list is
the singleton of the other's header — which is also its own header.  So the
conjunct "no section's siblings list contains its own header" fails: the
exclusion is by position, not by header text. -/
theorem c3_counterexample :
    (MarkdownSplitter.split_text "# X\n# X").map
        (fun s => (s.section_header, s.header_level, s.metadata.parents, s.metadata.siblings))
      = [("X", 1, [], ["X"]), ("X", 1, [], ["X"])] := rfl

/-- C3 (amended): for any two distinct sections of one split with the same
level and identical parents mapping, each one's header appears in the other's
siblings; a section's siblings list is exactly the ordered (document-order)
list of the headers of the other same-(level, parents) sections, itself
excluded by position; consequently a section's own header occurs among its
siblings exactly when some other section of its group carries the same
header. -/
theorem c3_siblings (text : String) (i j : Nat)
    (hi : i < (MarkdownSplitter.split_text text).length)
    (hj : j < (MarkdownSplitter.split_text text).length)
    (hne : i ≠ j)
    (hlvl : (MarkdownSplitter.split_text text)[i].header_level
          = (MarkdownSplitter.split_text text)[j].header_level)
    (hpar : (MarkdownSplitter.split_text text)[i].metadata.parents
          = (MarkdownSplitter.split_text text)[j].metadata.parents) :
    (MarkdownSplitter.split_text text)[j].section_header
        ∈ (MarkdownSplitter.split_text text)[i].metadata.siblings ∧
    (MarkdownSplitter.split_text text)[i].section_header
        ∈ (MarkdownSplitter.split_text text)[j].metadata.siblings ∧
    (MarkdownSplitter.split_text text)[i].metadata.siblings
      = ((MarkdownSplitter.split_text text).enum.filter (fun jp =>
            jp.1 != i
            && (jp.2.header_level == (MarkdownSplitter.split_text text)[i].header_level)
            && (jp.2.metadata.parents
                == (MarkdownSplitter.split_text text)[i].metadata.parents))).map
          (fun jp => jp.2.section_header) ∧
    ((MarkdownSplitter.split_text text)[i].section_header
        ∈ (MarkdownSplitter.split_text text)[i].metadata.siblings
      ↔ ∃ k, ∃ hk : k < (MarkdownSplitter.split_text text).length, k ≠ i
          ∧ (MarkdownSplitter.split_text text)[k].header_level
              = (MarkdownSplitter.split_text text)[i].header_level
          ∧ (MarkdownSplitter.split_text text)[k].metadata.parents
              = (MarkdownSplitter.split_text text)[i].metadata.parents
          ∧ (MarkdownSplitter.split_text text)[k].section_header
              = (MarkdownSplitter.split_text text)[i].section_header) := by
  have hi' : i < (withParents text).length := (split_length_iff text i).mp hi
  have hj' : j < (withParents text).length := (split_length_iff text j).mp hj
  have hfi := split_text_getElem text i hi' hi
  have hfj := split_text_getElem text j hj' hj
  have hlvl' : ((withParents text)[j]).1.level = ((withParents text)[i]).1.level := by
    have h1 := hlvl
    rw [hfi, hfj] at h1
    exact h1.symm
  have hpar' : ((withParents text)[j]).2 = ((withParents text)[i]).2 := by
    have h1 := hpar
    rw [hfi, hfj] at h1
    exact h1.symm
  have hkey : sibKey ((withParents text)[j]) = sibKey ((withParents text)[i]) := by
    simp [sibKey, Prod.ext_iff, hlvl', hpar']
  have e1 : (MarkdownSplitter.split_text text)[i].header_level
      = ((withParents text)[i]).1.level := by rw [hfi]; rfl
  have e2 : (MarkdownSplitter.split_text text)[i].metadata.parents
      = ((withParents text)[i]).2 := by rw [hfi]; rfl
  refine ⟨?_, ?_, ?_, ?_⟩
  · rw [hfi, hfj]
    exact sib_mem (withParents text) i j hi' hj' (Ne.symm hne) hkey
  · rw [hfi, hfj]
    exact sib_mem (withParents text) j i hj' hi' hne hkey.symm
  · rw [hfi]
    show siblingsOf (withParents text) i = _
    rw [siblingsOf_eq (withParents text) i hi']
    apply filtermap_enum_rel
      (fun (x : RawSection × List (String × Option String)) (s : Section) =>
        s.section_header = cleanedHeader x.1 ∧ s.header_level = x.1.level
          ∧ s.metadata.parents = x.2)
    · intro n a b hR
      obtain ⟨hRh, hRl, hRp⟩ := hR
      apply Bool.coe_iff_coe.mp
      simp only [Bool.and_eq_true, bne_iff_ne, beq_iff_eq, hRl, hRp, e1, e2]
      constructor
      · rintro ⟨h1, h2⟩
        rw [sibKey, sibKey, Prod.ext_iff] at h2
        exact ⟨⟨h1, h2.1⟩, h2.2⟩
      · rintro ⟨⟨h1, h2⟩, h3⟩
        refine ⟨h1, ?_⟩
        rw [sibKey, sibKey, Prod.ext_iff]
        exact ⟨h2, h3⟩
    · intro n a b hR
      exact hR.1.symm
    · exact split_text_forall₂ text
  · rw [hfi]
    show cleanedHeader ((withParents text)[i]).1 ∈ siblingsOf (withParents text) i ↔ _
    rw [sib_own_iff (withParents text) i hi']
    constructor
    · rintro ⟨k, hk, hki, hkkey, hkhd⟩
      have hk2 : k < (MarkdownSplitter.split_text text).length :=
        (split_length_iff text k).mpr hk
      have hfk := split_text_getElem text k hk hk2
      refine ⟨k, hk2, hki, ?_, ?_, ?_⟩
      · rw [hfk]
        have h5 := congrArg Prod.fst hkkey
        exact h5
      · rw [hfk]
        have h5 := congrArg Prod.snd hkkey
        exact h5
      · rw [hfk]
        exact hkhd
    · rintro ⟨k, hk2, hki, hkl, hkp, hkh⟩
      have hk : k < (withParents text).length := (split_length_iff text k).mp hk2
      have hfk := split_text_getElem text k hk hk2
      rw [hfk] at hkl hkp hkh
      refine ⟨k, hk, hki, ?_, hkh⟩
      rw [sibKey, sibKey, Prod.ext_iff]
      exact ⟨hkl, hkp⟩

/-- C3 witness: mutual sibling membership of the two level-2 sections. -/
theorem c3_witness :
    ((MarkdownSplitter.split_text "# A\n## B\n## C").get ⟨2, by decide⟩).section_header
      ∈ ((MarkdownSplitter.split_text "# A\n## B\n## C").get ⟨1, by decide⟩).metadata.siblings :=
  (c3_siblings "# A\n## B\n## C" 1 2 (by decide) (by decide) (by decide)
    (by decide) (by decide)).1

/-! Claim C2: parents metadata.  Spec-side definitions first. -/

/-- Wording of the spec (section 3): the nearest preceding heading at level l
that structurally contains the current position.  Scanning the previous
sections backwards, take the first one of level at most l: it is the level-l
ancestor when its level is exactly l; a shallower heading encountered first
cuts any earlier level-l heading off, leaving no ancestor at level l. -/
def nearestAncestor (prev : List RawSection) (l : Nat) : Option String :=
  match prev.reverse.find? (fun s => decide (s.level ≤ l)) with
  | none => none
  | some s => if s.level = l then some (cleanedHeader s) else none

/-- Wording of the spec: the parents mapping of a section of level L places
the level labels "h1" .. "h(L-1)" in increasing order, each mapped to the
header of the nearest containing ancestor at that level, omitting the levels
with no such ancestor (no null value is ever inserted). -/
def specParents (prev : List RawSection) (L : Nat) : List (String × Option String) :=
  (List.range' 1 (L - 1)).filterMap (fun l =>
    (nearestAncestor prev l).map (fun h => ("h" ++ toString l, some h)))

/-- Lookup of the tracked ancestor at a level in the pass-2 state. -/
def lookupLevel (anc : List (Nat × String)) (l : Nat) : Option String :=
  (anc.find? (fun p => p.1 == l)).map Prod.snd

theorem lookupLevel_cons (p : Nat × String) (rest : List (Nat × String)) (l : Nat) :
    lookupLevel (p :: rest) l = if p.1 = l then some p.2 else lookupLevel rest l := by
  unfold lookupLevel
  rw [List.find?_cons]
  by_cases h : p.1 = l
  · simp [h]
  · have hb : (p.1 == l) = false := by simp [h]
    rw [hb, if_neg h]

theorem nearestAncestor_append (pre : List RawSection) (s : RawSection) (l : Nat) :
    nearestAncestor (pre ++ [s]) l
      = if s.level ≤ l then (if s.level = l then some (cleanedHeader s) else none)
        else nearestAncestor pre l := by
  unfold nearestAncestor
  rw [List.reverse_append]
  simp only [List.reverse_singleton, List.singleton_append, List.find?_cons]
  by_cases h : s.level ≤ l
  · simp [h]
  · simp [h]

theorem lookupLevel_filter (anc : List (Nat × String)) (L l : Nat) (hl : l < L) :
    lookupLevel (anc.filter (fun p => p.1 < L)) l = lookupLevel anc l := by
  induction anc with
  | nil => rfl
  | cons p rest ih =>
    rw [List.filter_cons]
    by_cases hp : p.1 < L
    · rw [if_pos (decide_eq_true hp), lookupLevel_cons, lookupLevel_cons]
      by_cases hpl : p.1 = l
      · simp [hpl]
      · simp [hpl, ih]
    · have hge : ¬((decide (p.1 < L)) = true) := by simpa using hp
      rw [if_neg hge, lookupLevel_cons]
      have hne : ¬(p.1 = l) := by omega
      rw [if_neg hne]
      exact ih

theorem lookupLevel_update (anc : List (Nat × String)) (L : Nat) (hdr : String) (l : Nat) :
    lookupLevel ((anc.filter (fun p => p.1 < L)) ++ [(L, hdr)]) l
      = if L ≤ l then (if L = l then some hdr else none) else lookupLevel anc l := by
  by_cases h : L ≤ l
  · rw [if_pos h]
    have hnone : (anc.filter (fun p => p.1 < L)).find? (fun p => p.1 == l) = none := by
      rw [List.find?_eq_none]
      intro x hx
      have hxL : x.1 < L := of_decide_eq_true (List.mem_filter.mp hx).2
      simp only [beq_iff_eq]
      omega
    unfold lookupLevel
    rw [List.find?_append, hnone, Option.none_or]
    by_cases hLl : L = l
    · simp [hLl]
    · have hb : ((L : Nat) == l) = false := by simp [hLl]
      simp only [List.find?_cons, hb, if_neg hLl]
      rfl
  · rw [if_neg h]
    have hsingle : ([((L, hdr) : Nat × String)]).find? (fun p => p.1 == l) = none := by
      have hne : ((L : Nat)) ≠ l := by omega
      have hb : ((L : Nat) == l) = false := beq_eq_false_iff_ne.mpr hne
      rw [List.find?_cons, hb]
      rfl
    unfold lookupLevel
    rw [List.find?_append, hsingle, Option.or_none]
    have h2 := lookupLevel_filter anc L l (by omega)
    unfold lookupLevel at h2
    exact h2

/-- A strictly level-sorted association list with keys in [a, a + n) is
recovered whole by looking each level of the range up in order. -/
theorem range'_filterMap_lookup {β : Type} (g : Nat → String → β) :
    ∀ (n a : Nat) (xs : List (Nat × String)),
      List.Pairwise (fun p q : Nat × String => p.1 < q.1) xs →
      (∀ p ∈ xs, a ≤ p.1) → (∀ p ∈ xs, p.1 < a + n) →
      (List.range' a n).filterMap (fun l => (lookupLevel xs l).map (g l))
        = xs.map (fun p => g p.1 p.2) := by
  intro n
  induction n with
  | zero =>
    intro a xs _ hlo hhi
    cases xs with
    | nil => rfl
    | cons p rest =>
      exfalso
      have h1 := hlo p (by simp)
      have h2 := hhi p (by simp)
      omega
  | succ m ih =>
    intro a xs hsort hlo hhi
    rw [List.range'_succ]
    cases xs with
    | nil =>
      rw [List.filterMap_cons_none
        (f := fun l => (lookupLevel ([] : List (Nat × String)) l).map (g l)) (by rfl)]
      exact ih (a + 1) [] (by simp) (by simp) (by simp)
    | cons p rest =>
      obtain ⟨k, v⟩ := p
      have hk_lo : a ≤ k := hlo (k, v) (by simp)
      have hrest_gt : ∀ q ∈ rest, k < q.1 := (List.pairwise_cons.mp hsort).1
      by_cases hka : k = a
      · subst hka
        have hl : lookupLevel ((k, v) :: rest) k = some v := by
          rw [lookupLevel_cons, if_pos rfl]
        rw [List.filterMap_cons_some
          (f := fun l => (lookupLevel ((k, v) :: rest) l).map (g l)) (b := g k v)
          (by
            show (lookupLevel ((k, v) :: rest) k).map (g k) = some (g k v)
            rw [hl]
            rfl)]
        have htail : ∀ l ∈ List.range' (k + 1) m,
            (lookupLevel ((k, v) :: rest) l).map (g l) = (lookupLevel rest l).map (g l) := by
          intro l hl2
          have hkl : ¬(k = l) := by
            have := List.mem_range'_1.mp hl2
            omega
          rw [lookupLevel_cons, if_neg hkl]
        rw [List.filterMap_congr htail, List.map_cons]
        have htl := ih (k + 1) rest (List.pairwise_cons.mp hsort).2
          (fun q hq => by have := hrest_gt q hq; omega)
          (fun q hq => by have := hhi q (by simp [hq]); omega)
        rw [htl]
      · have hka' : a < k := by omega
        have hl : lookupLevel ((k, v) :: rest) a = none := by
          rw [lookupLevel_cons, if_neg (by omega)]
          have hfind : rest.find? (fun p => p.1 == a) = none := by
            rw [List.find?_eq_none]
            intro q hq
            have := hrest_gt q hq
            simp only [beq_iff_eq]
            omega
          unfold lookupLevel
          rw [hfind]
          rfl
        rw [List.filterMap_cons_none
          (f := fun l => (lookupLevel ((k, v) :: rest) l).map (g l))
          (by
            show (lookupLevel ((k, v) :: rest) a).map (g a) = none
            rw [hl]
            rfl)]
        exact ih (a + 1) ((k, v) :: rest) hsort
          (by
            intro q hq
            rcases List.mem_cons.mp hq with h1 | h1
            · rw [h1]; omega
            · have := hrest_gt q h1; omega)
          (by
            intro q hq
            have := hhi q hq
            omega)

/-! Levels of produced sections are positive. -/

theorem headingOf_level_pos (line : List Char) (lvl : Nat) (hdr : List Char)
    (h : headingOf line = some (lvl, hdr)) : 1 ≤ lvl := by
  simp only [headingOf] at h
  by_cases h0 : (line.takeWhile (· == '#')).length = 0
  · rw [if_pos h0] at h
    cases h
  · rw [if_neg h0] at h
    by_cases h1 : (line.dropWhile (· == '#')).isEmpty
    · rw [if_pos h1] at h
      simp only [Option.some.injEq, Prod.mk.injEq] at h
      omega
    · rw [if_neg h1] at h
      by_cases h2 : isPySpace ((line.dropWhile (· == '#')).headD ' ') = true
      · rw [if_pos h2] at h
        simp only [Option.some.injEq, Prod.mk.injEq] at h
        omega
      · rw [if_neg h2] at h
        cases h

theorem classifyStep_tag_pos (fence : Option Char) (line : List Char) (lvl : Nat)
    (hdr : List Char) (h : (classifyStep fence line).2 = some (lvl, hdr)) : 1 ≤ lvl := by
  cases fence with
  | some c => simp [classifyStep] at h
  | none =>
    cases hf : fenceCharOf line with
    | some c => simp [classifyStep, hf] at h
    | none =>
      simp only [classifyStep, hf] at h
      exact headingOf_level_pos line lvl hdr h

theorem classifyLines_tag_pos (ls : List (List Char)) : ∀ (fence : Option Char) p,
    p ∈ classifyLines fence ls → ∀ lvl hdr, p.1 = some (lvl, hdr) → 1 ≤ lvl := by
  induction ls with
  | nil =>
    intro fence p hp
    cases hp
  | cons l rest ih =>
    intro fence p hp lvl hdr htag
    rcases List.mem_cons.mp hp with h1 | h1
    · subst h1
      exact classifyStep_tag_pos fence l lvl hdr htag
    · exact ih _ p h1 lvl hdr htag

theorem segCore_level_pos (tg : Tagged) : ∀ cur,
    (∀ p ∈ tg, ∀ lvl hdr, p.1 = some (lvl, hdr) → 1 ≤ lvl) →
    (∀ r ∈ closeOpt cur, 1 ≤ r.level) →
    ∀ r ∈ segCore cur tg, 1 ≤ r.level := by
  induction tg with
  | nil =>
    intro cur _ hcur r hr
    exact hcur r hr
  | cons p rest ih =>
    intro cur htags hcur r hr
    obtain ⟨tag, l⟩ := p
    cases tag with
    | none =>
      refine ih (pushLine cur l) (fun q hq lvl hdr ht => htags q (by simp [hq]) lvl hdr ht)
        ?_ r hr
      intro r' hr'
      cases cur with
      | none => simp [pushLine, closeOpt] at hr'
      | some s =>
        obtain ⟨lv, hd, bf⟩ := s
        simp only [pushLine, closeOpt, List.mem_singleton] at hr'
        subst hr'
        exact hcur ⟨hd, lv, joinLines (stripBlankEnds bf)⟩ (by simp [closeOpt])
    | some hl =>
      obtain ⟨lvl, hdr⟩ := hl
      rcases List.mem_append.mp hr with h1 | h1
      · exact hcur r h1
      · refine ih (some (lvl, hdr, [])) (fun q hq lv hd ht => htags q (by simp [hq]) lv hd ht)
          ?_ r h1
        intro r' hr'
        simp only [closeOpt, List.mem_singleton] at hr'
        subst hr'
        exact htags (some (lvl, hdr), l) (by simp) lvl hdr rfl

theorem splitRaw_level_pos (text : String) : ∀ r ∈ splitRaw text, 1 ≤ r.level := by
  unfold splitRaw
  refine segCore_level_pos _ none ?_ ?_
  · intro p hp lvl hdr htag
    exact classifyLines_tag_pos _ none p hp lvl hdr htag
  · intro r hr
    simp [closeOpt] at hr

/-! The ancestor-tracking pass against the nearest-preceding-ancestor wording. -/

theorem kept_map_eq_specParents (anc : List (Nat × String)) (pre : List RawSection) (L : Nat)
    (hsort : List.Pairwise (fun p q : Nat × String => p.1 < q.1) anc)
    (hpos : ∀ p ∈ anc, 1 ≤ p.1)
    (hlook : ∀ l, lookupLevel anc l = nearestAncestor pre l)
    (hL : 1 ≤ L) :
    (anc.filter (fun p => p.1 < L)).map
        (fun p => ("h" ++ toString p.1, (some p.2 : Option String)))
      = specParents pre L := by
  unfold specParents
  have hstep : ∀ l ∈ List.range' 1 (L - 1),
      (nearestAncestor pre l).map (fun h => ("h" ++ toString l, (some h : Option String)))
        = (lookupLevel (anc.filter (fun p => p.1 < L)) l).map
            (fun h => ("h" ++ toString l, (some h : Option String))) := by
    intro l hl
    have hb := List.mem_range'_1.mp hl
    have hlL : l < L := by omega
    rw [← hlook l, lookupLevel_filter anc L l hlL]
  rw [List.filterMap_congr hstep]
  exact (range'_filterMap_lookup (fun l h => ("h" ++ toString l, (some h : Option String)))
    (L - 1) 1 (anc.filter (fun p => p.1 < L))
    (List.Pairwise.filter _ hsort)
    (fun p hp => hpos p (List.mem_of_mem_filter hp))
    (fun p hp => by
      have := of_decide_eq_true (List.mem_filter.mp hp).2
      omega)).symm

theorem computeParents_spec (rs : List RawSection) :
    ∀ (anc : List (Nat × String)) (pre : List RawSection),
      List.Pairwise (fun p q : Nat × String => p.1 < q.1) anc →
      (∀ p ∈ anc, 1 ≤ p.1) →
      (∀ l, lookupLevel anc l = nearestAncestor pre l) →
      (∀ r ∈ rs, 1 ≤ r.level) →
      ∀ i, ((computeParents anc rs)[i]?).map (fun x => x.2)
          = (rs[i]?).map (fun r => specParents (pre ++ rs.take i) r.level) := by
  induction rs with
  | nil =>
    intro anc pre _ _ _ _ i
    simp [computeParents]
  | cons s rest ih =>
    intro anc pre hsort hpos hlook hlevels i
    have hsL : 1 ≤ s.level := hlevels s (by simp)
    cases i with
    | zero =>
      simp only [computeParents, List.getElem?_cons_zero, Option.map_some, List.take_zero,
        List.append_nil]
      exact congrArg some (kept_map_eq_specParents anc pre s.level hsort hpos hlook hsL)
    | succ n =>
      simp only [computeParents, List.getElem?_cons_succ, List.take_succ_cons]
      rw [show pre ++ s :: List.take n rest = (pre ++ [s]) ++ List.take n rest by simp]
      apply ih ((anc.filter (fun p => p.1 < s.level)) ++ [(s.level, cleanedHeader s)])
        (pre ++ [s])
      · rw [List.pairwise_append]
        refine ⟨List.Pairwise.filter _ hsort, by simp, ?_⟩
        intro a ha b hb
        have haL : a.1 < s.level := of_decide_eq_true (List.mem_filter.mp ha).2
        simp only [List.mem_singleton] at hb
        subst hb
        exact haL
      · intro p hp
        rcases List.mem_append.mp hp with h1 | h1
        · exact hpos p (List.mem_of_mem_filter h1)
        · simp only [List.mem_singleton] at h1
          subst h1
          exact hsL
      · intro l
        rw [lookupLevel_update anc s.level (cleanedHeader s) l,
          nearestAncestor_append pre s l]
        by_cases h1 : s.level ≤ l
        · rw [if_pos h1, if_pos h1]
        · rw [if_neg h1, if_neg h1]
          exact hlook l
      · intro r hr
        exact hlevels r (by simp [hr])

theorem withParents_fst (text : String) (i : Nat) (h1 : i < (withParents text).length)
    (h2 : i < (splitRaw text).length) :
    ((withParents text)[i]).1 = (splitRaw text)[i] := by
  have h3 : (withParents text).map Prod.fst = splitRaw text :=
    computeParents_map_fst [] (splitRaw text)
  have h4 := congrArg (fun l => l[i]?) h3
  simp only [List.getElem?_map] at h4
  rw [List.getElem?_eq_getElem h1, List.getElem?_eq_getElem h2] at h4
  simp only [Option.map_some', Option.some.injEq] at h4
  exact h4

theorem specParents_no_none (pre : List RawSection) (L : Nat) :
    ∀ kv ∈ specParents pre L, kv.2 ≠ none := by
  intro kv hkv
  unfold specParents at hkv
  rw [List.mem_filterMap] at hkv
  obtain ⟨l, _, heq⟩ := hkv
  rw [Option.map_eq_some'] at heq
  obtain ⟨h, _, hkv2⟩ := heq
  intro hc
  rw [← hkv2] at hc
  simp at hc

/-- C2: the parents mapping of the i-th returned section equals the
spec-worded computation — the labels "h1" .. "h(L-1)" in increasing order,
each bound to the header of the nearest preceding heading at that level that
structurally contains the section, levels with no ancestor omitted; it is
empty for every level-1 section, and no value of the mapping is ever null. -/
theorem c2_parents (text : String) (i : Nat)
    (hi : i < (MarkdownSplitter.split_text text).length) :
    (MarkdownSplitter.split_text text)[i].metadata.parents
      = specParents ((splitRaw text).take i)
          ((MarkdownSplitter.split_text text)[i].header_level) ∧
    ((MarkdownSplitter.split_text text)[i].header_level = 1 →
      (MarkdownSplitter.split_text text)[i].metadata.parents = []) ∧
    (∀ kv ∈ (MarkdownSplitter.split_text text)[i].metadata.parents, kv.2 ≠ none) := by
  have hi' : i < (withParents text).length := (split_length_iff text i).mp hi
  have hi'' : i < (splitRaw text).length := by
    rw [← withParents_length]
    exact hi'
  have hf := split_text_getElem text i hi' hi
  have hspec : ((withParents text)[i]?).map (fun x => x.2)
      = ((splitRaw text)[i]?).map
          (fun r => specParents ([] ++ (splitRaw text).take i) r.level) :=
    computeParents_spec (splitRaw text) [] [] (by simp) (by simp) (fun l => rfl)
      (splitRaw_level_pos text) i
  rw [List.getElem?_eq_getElem hi', List.getElem?_eq_getElem hi''] at hspec
  simp only [Option.map_some', List.nil_append, Option.some.injEq] at hspec
  have hpar : (MarkdownSplitter.split_text text)[i].metadata.parents
      = ((withParents text)[i]).2 := by
    rw [hf]
    rfl
  have hlev : (MarkdownSplitter.split_text text)[i].header_level
      = ((splitRaw text)[i]).level := by
    rw [hf]
    show ((withParents text)[i]).1.level = ((splitRaw text)[i]).level
    rw [withParents_fst text i hi' hi'']
  have hmain : (MarkdownSplitter.split_text text)[i].metadata.parents
      = specParents ((splitRaw text).take i)
          ((MarkdownSplitter.split_text text)[i].header_level) := by
    rw [hpar, hlev]
    exact hspec
  refine ⟨hmain, fun h1 => ?_, fun kv hkv => ?_⟩
  · rw [hmain, h1]
    rfl
  · rw [hmain] at hkv
    exact specParents_no_none _ _ kv hkv

/-- C2 witness: the level-2 section under a level-1 heading gets exactly the
h1 ancestor. -/
theorem c2_witness :
    1 < (MarkdownSplitter.split_text "# A\n## B").length ∧
    ((MarkdownSplitter.split_text "# A\n## B").get ⟨1, by decide⟩).metadata.parents
      = specParents ((splitRaw "# A\n## B").take 1)
          (((MarkdownSplitter.split_text "# A\n## B").get ⟨1, by decide⟩).header_level) :=
  ⟨by decide, (c2_parents "# A\n## B" 1 (by decide)).1⟩

/-! Claim C6: content spans.  Spec-side positional definitions. -/

/-- Positions (line indices) of the heading-tagged lines, in order. -/
def headingPositions : Tagged → List Nat
  | [] => []
  | (tag, _) :: rest =>
    if tag.isSome then 0 :: (headingPositions rest).map (fun n => n + 1)
    else (headingPositions rest).map (fun n => n + 1)

/-- Each heading position paired with the next heading position, the last one
with the total number of lines. -/
def posPairs (hp : List Nat) (len : Nat) : List (Nat × Nat) :=
  match hp with
  | [] => []
  | p :: rest => (p, rest.headD len) :: posPairs rest len

/-- Wording of the spec: the section carved out of a heading position and the
next heading position — its content is the literal text of the lines lying
strictly between the two (take to the next heading, drop through the heading
line itself), with leading and trailing blank lines stripped, everything else
verbatim. -/
def specSectionAt (tg : Tagged) (pr : Nat × Nat) : Option RawSection :=
  match (tg.getD pr.1 (none, [])).1 with
  | some (lvl, hdr) =>
    some ⟨hdr, lvl,
      joinLines (stripBlankEnds (((tg.map Prod.snd).take pr.2).drop (pr.1 + 1)))⟩
  | none => none

/-- Wording of the spec: all sections read off positionally from the tagged
lines.  Lines before the first heading position belong to no pair and so to no
section. -/
def sectionsSpec (tg : Tagged) : List RawSection :=
  (posPairs (headingPositions tg) tg.length).filterMap (specSectionAt tg)

theorem headingPositions_cons_none (l : List Char) (rest : Tagged) :
    headingPositions ((none, l) :: rest) = (headingPositions rest).map (fun n => n + 1) := by
  simp [headingPositions]

theorem headingPositions_cons_some (hl : Nat × List Char) (l : List Char) (rest : Tagged) :
    headingPositions ((some hl, l) :: rest)
      = 0 :: (headingPositions rest).map (fun n => n + 1) := by
  simp [headingPositions]

theorem headD_map_succ (ps : List Nat) (n : Nat) :
    ((ps.map (fun n => n + 1)).headD (n + 1)) = ps.headD n + 1 := by
  cases ps <;> rfl

theorem specSectionAt_shift (x : Option (Nat × List Char) × List Char) (tg' : Tagged)
    (p q : Nat) :
    specSectionAt (x :: tg') (p + 1, q + 1) = specSectionAt tg' (p, q) := by
  unfold specSectionAt
  simp only [List.getD_cons_succ, List.map_cons, List.take_succ_cons, List.drop_succ_cons]

theorem posPairs_shift (x : Option (Nat × List Char) × List Char) (tg' : Tagged) :
    ∀ (hp : List Nat) (len : Nat),
      (posPairs (hp.map (fun n => n + 1)) (len + 1)).filterMap (specSectionAt (x :: tg'))
        = (posPairs hp len).filterMap (specSectionAt tg') := by
  intro hp
  induction hp with
  | nil => intro len; rfl
  | cons p rest ih =>
    intro len
    simp only [List.map_cons, posPairs]
    rw [List.filterMap_cons, List.filterMap_cons, headD_map_succ,
      specSectionAt_shift x tg' p (rest.headD len), ih len]

theorem sectionsSpec_cons_none (l : List Char) (rest : Tagged) :
    sectionsSpec ((none, l) :: rest) = sectionsSpec rest := by
  unfold sectionsSpec
  rw [headingPositions_cons_none,
    show ((none, l) :: rest : Tagged).length = rest.length + 1 from rfl]
  exact posPairs_shift (none, l) rest (headingPositions rest) rest.length

theorem headD_headingPositions (tg : Tagged) :
    (headingPositions tg).headD tg.length
      = (tg.takeWhile (fun p => p.1.isNone)).length := by
  induction tg with
  | nil => rfl
  | cons p rest ih =>
    obtain ⟨tag, l⟩ := p
    cases tag with
    | none =>
      rw [headingPositions_cons_none, List.takeWhile_cons_of_pos (by rfl),
        show ((none, l) :: rest : Tagged).length = rest.length + 1 from rfl,
        headD_map_succ, ih]
      simp
    | some hl =>
      rw [headingPositions_cons_some, List.takeWhile_cons_of_neg (by simp)]
      rfl

theorem dropWhile_eq_drop_length_takeWhile {α : Type} (p : α → Bool) (l : List α) :
    l.dropWhile p = l.drop (l.takeWhile p).length := by
  induction l with
  | nil => rfl
  | cons x xs ih =>
    by_cases hx : p x = true
    · rw [List.dropWhile_cons_of_pos hx, List.takeWhile_cons_of_pos hx]
      simp only [List.length_cons, List.drop_succ_cons]
      exact ih
    · rw [List.dropWhile_cons_of_neg hx, List.takeWhile_cons_of_neg hx]
      rfl

theorem sectionsSpec_cons_some (lvl : Nat) (hdr : List Char) (l : List Char) (rest : Tagged) :
    sectionsSpec ((some (lvl, hdr), l) :: rest)
      = (⟨hdr, lvl, joinLines (stripBlankEnds ((rest.map Prod.snd).take
            ((rest.takeWhile (fun p => p.1.isNone)).length)))⟩ : RawSection)
        :: sectionsSpec rest := by
  unfold sectionsSpec
  rw [headingPositions_cons_some,
    show ((some (lvl, hdr), l) :: rest : Tagged).length = rest.length + 1 from rfl]
  simp only [posPairs]
  rw [List.filterMap_cons, headD_map_succ, headD_headingPositions rest]
  have hhead : specSectionAt ((some (lvl, hdr), l) :: rest)
      (0, (rest.takeWhile (fun p => p.1.isNone)).length + 1)
      = some ⟨hdr, lvl, joinLines (stripBlankEnds ((rest.map Prod.snd).take
          ((rest.takeWhile (fun p => p.1.isNone)).length)))⟩ := by
    unfold specSectionAt
    simp [List.take_succ_cons]
  rw [hhead, posPairs_shift (some (lvl, hdr), l) rest (headingPositions rest) rest.length]

theorem sectionsSpec_dropWhile (tg : Tagged) :
    sectionsSpec tg = sectionsSpec (tg.dropWhile (fun p => p.1.isNone)) := by
  induction tg with
  | nil => rfl
  | cons x rest ih =>
    obtain ⟨tag, l⟩ := x
    cases tag with
    | none =>
      rw [List.dropWhile_cons_of_pos (by rfl), sectionsSpec_cons_none l rest]
      exact ih
    | some hl =>
      rw [List.dropWhile_cons_of_neg (by simp)]

theorem segCore_some (tg : Tagged) : ∀ (lv : Nat) (hd : List Char) (buf : List (List Char)),
    segCore (some (lv, hd, buf)) tg
      = (⟨hd, lv, joinLines (stripBlankEnds (buf ++ (tg.map Prod.snd).take
            ((tg.takeWhile (fun p => p.1.isNone)).length)))⟩ : RawSection)
        :: segCore none (tg.drop ((tg.takeWhile (fun p => p.1.isNone)).length)) := by
  induction tg with
  | nil =>
    intro lv hd buf
    simp [segCore, closeOpt]
  | cons p rest ih =>
    intro lv hd buf
    obtain ⟨tag, l⟩ := p
    cases tag with
    | none =>
      rw [show segCore (some (lv, hd, buf)) ((none, l) :: rest)
          = segCore (some (lv, hd, buf ++ [l])) rest from rfl,
        ih lv hd (buf ++ [l]), List.takeWhile_cons_of_pos (by rfl)]
      simp only [List.length_cons, List.map_cons, List.take_succ_cons, List.drop_succ_cons]
      rw [List.append_assoc]
      rfl
    | some hl =>
      obtain ⟨lvl2, hdr2⟩ := hl
      rw [List.takeWhile_cons_of_neg (by simp)]
      simp only [List.length_nil, List.take_zero, List.drop_zero, List.append_nil]
      rfl

theorem segCore_eq_sectionsSpec : ∀ (n : Nat) (tg : Tagged), tg.length ≤ n →
    segCore none tg = sectionsSpec tg := by
  intro n
  induction n with
  | zero =>
    intro tg h
    cases tg with
    | nil => rfl
    | cons p rest => simp at h
  | succ m ih =>
    intro tg hlen
    cases tg with
    | nil => rfl
    | cons p rest =>
      obtain ⟨tag, l⟩ := p
      have hrest : rest.length ≤ m := by
        simp only [List.length_cons] at hlen
        omega
      cases tag with
      | none =>
        rw [show segCore none ((none, l) :: rest) = segCore none rest from rfl,
          ih rest hrest, sectionsSpec_cons_none l rest]
      | some hl =>
        obtain ⟨lvl, hdr⟩ := hl
        rw [show segCore none ((some (lvl, hdr), l) :: rest)
            = segCore (some (lvl, hdr, [])) rest from rfl,
          segCore_some rest lvl hdr [], sectionsSpec_cons_some lvl hdr l rest]
        simp only [List.nil_append]
        congr 1
        have hdroplen :
            (rest.drop ((rest.takeWhile (fun p => p.1.isNone)).length)).length ≤ m := by
          rw [List.length_drop]
          omega
        rw [ih (rest.drop ((rest.takeWhile (fun p => p.1.isNone)).length)) hdroplen,
          ← dropWhile_eq_drop_length_takeWhile (fun p => p.1.isNone) rest]
        exact (sectionsSpec_dropWhile rest).symm

theorem splitRaw_eq_sectionsSpec (text : String) :
    splitRaw text = sectionsSpec (classifyLines none (splitLinesChars text.toList)) :=
  segCore_eq_sectionsSpec _ _ (Nat.le_refl _)

theorem split_text_map_text (text : String) :
    (MarkdownSplitter.split_text text).map (fun s => s.section_text)
      = (splitRaw text).map (fun r => (⟨r.content⟩ : String)) := by
  rw [split_text_eq, List.map_map]
  have h1 : ((fun s : Section => s.section_text) ∘ (fun ip =>
      mkSection ⟨ip.2.1.header⟩ ⟨ip.2.1.content⟩ ip.2.1.level
        { parents := ip.2.2, siblings := siblingsOf (withParents text) ip.1 }))
      = (fun x : RawSection × List (String × Option String) => (⟨x.1.content⟩ : String))
          ∘ Prod.snd := rfl
  rw [h1, ← List.map_map, List.enum_map_snd,
    show (fun x : RawSection × List (String × Option String) => (⟨x.1.content⟩ : String))
      = (fun r : RawSection => (⟨r.content⟩ : String)) ∘ Prod.fst from rfl,
    ← List.map_map, withParents, computeParents_map_fst]

/-- C6: the contents of the returned sections are, in order, exactly the
positional spans of the input lines: for the i-th heading position p and the
next heading position q (or the line count), the literal text of the lines
strictly between p and q, stripped of leading and trailing blank lines only,
everything internal verbatim; the lines before the first heading position
belong to no pair and hence to no section's content. -/
theorem c6_content (text : String) :
    (MarkdownSplitter.split_text text).map (fun s => s.section_text)
      = (sectionsSpec (classifyLines none (splitLinesChars text.toList))).map
          (fun r => (⟨r.content⟩ : String)) := by
  rw [split_text_map_text, splitRaw_eq_sectionsSpec]

end MarkdownMCP
